import Mathlib

/-
Verification of the PINT timing-model core.

Shallow embedding of src/pint/models/timing_model.py (the Cache decorators
and the TimingModel evaluation pipeline) together with the phase-reporting
convention of src/examples/event_optimize.py.  Vectorised numpy operations
over the per-observation axis are modelled pointwise: a delay function is a
map from one observation time to its contribution, applied with List.map;
elementwise array addition is List.zipWith (+).  Machine floats are modelled
as rationals.  The code is Python 2, so the iteration order of the two-key
delay-function dict is the CPython 2.7 hash-table order, which is embedded
below via the CPython string hash.
-/

set_option maxRecDepth 8000

/-- State of the `cache` attribute on a receiver, as tested by the two
decorators of class `Cache`:  `absent` models a missing attribute
(hasattr is false), `inactive` models `self.cache = None` (present but not
a `Cache` instance), `active store` models a `Cache` instance whose
attributes `store` map a wrapped function's name to its memoised result. -/
inductive CacheAttr (α : Type) where
  | absent
  | inactive
  | active (store : List (String × α))
deriving DecidableEq

/-- Embedding of `Cache.use_cache` (timing_model.py lines 64-95).  A wrapped
body is a function from the receiver's cache state to a result (which may be
a raised exception, modelled with `Except`) and the cache state it leaves
behind.  Mirrors the source: if the attribute is absent the body just runs;
if a `Cache` instance is already installed the call is a passthrough; if the
attribute is `None` a fresh `Cache()` is installed, the body runs, and then
`None` is stored back -- but that final store is only reached on a normal
return, since an exception propagates past it. -/
def use_cache {α β ε : Type} (body : CacheAttr α → Except ε β × CacheAttr α)
    (st : CacheAttr α) : Except ε β × CacheAttr α :=
  match st with
  | CacheAttr.absent => body CacheAttr.absent
  | CacheAttr.active s => body (CacheAttr.active s)
  | CacheAttr.inactive =>
      match body (CacheAttr.active []) with
      | (Except.ok r, _) => (Except.ok r, CacheAttr.inactive)
      | (Except.error e, st2) => (Except.error e, st2)

/-- Embedding of `Cache.cache_result` (timing_model.py lines 29-62) applied
to a computation named `fname` whose underlying body is `f`.  Returns the
call's result, the cache state after the call, and how many times the
underlying computation actually ran (0 or 1).  Mirrors the source: with an
active `Cache` instance the result is looked up under the function's name
(arguments are not part of the key) and stored on a miss; with no usable
cache the body runs and nothing is stored. -/
def cache_result {α : Type} (fname : String) (f : Unit → α) (st : CacheAttr α) :
    α × CacheAttr α × Nat :=
  match st with
  | CacheAttr.active s =>
      match s.lookup fname with
      | some v => (v, CacheAttr.active s, 0)
      | none =>
          let r := f ()
          (r, CacheAttr.active ((fname, r) :: s), 1)
  | st => (f (), st, 1)

/-- Two successive `cache_result` calls to the same wrapped computation on
the same receiver: returns both results, the final cache state, and the
total number of underlying computations. -/
def call_twice {α : Type} (fname : String) (f : Unit → α) (st : CacheAttr α) :
    (α × α) × CacheAttr α × Nat :=
  let c1 := cache_result fname f st
  let c2 := cache_result fname f c1.2.1
  ((c1.1, c2.1), c2.2.1, c1.2.2 + c2.2.2)

/-- One multiply-xor step of the CPython 2.7 string hash, on a 64-bit
C long (modelled as a natural number reduced mod 2^64). -/
def pyhashStep (x c : Nat) : Nat := ((1000003 * x) ^^^ c) % 2 ^ 64

/-- The CPython 2.7 string hash (string_hash in stringobject.c, with hash
randomisation off, its default): x starts as the first byte shifted left 7,
each byte is folded in with `pyhashStep`, the length is xor-ed in, and a
result equal to -1 (all ones) is replaced by -2. -/
def pyhashChars : List Nat → Nat
  | [] => 0
  | c :: cs =>
      let x0 := (c <<< 7) % 2 ^ 64
      let x1 := (c :: cs).foldl pyhashStep x0
      let x2 := (x1 ^^^ (c :: cs).length) % 2 ^ 64
      if x2 = 2 ^ 64 - 1 then 2 ^ 64 - 2 else x2

/-- Hash-table slot of a string key in a fresh 8-slot CPython 2.7 dict
(PyDict_MINSIZE = 8, slot = hash & 7). -/
def pySlot (s : String) : Nat :=
  pyhashChars (s.toList.map Char.toNat) % 8

/-- The two delay levels, the keys of `self.delay_funcs = {'L1':[],'L2':[]}`
(timing_model.py line 132). -/
inductive Level where
  | L1
  | L2
deriving DecidableEq

/-- Iteration order of `self.delay_funcs.keys()` for the two-entry dict with
keys 'L1' and 'L2': a CPython 2.7 dict iterates its 8 slots in ascending
order, and the two keys land in distinct slots determined by their string
hashes, so the key in the lower slot comes out first. -/
def dictKeysOrder : List Level :=
  if pySlot "L1" < pySlot "L2" then [Level.L1, Level.L2]
  else if pySlot "L2" < pySlot "L1" then [Level.L2, Level.L1]
  else [Level.L1, Level.L2]

/-- A registered delay function: a tag naming it plus its per-observation
contribution. -/
abbrev DelayFunc := String × (Rat → Rat)

/-- The `self.delay_funcs` dict: the 'L1' and 'L2' lists of delay functions
in registration order. -/
structure DelayRegistry where
  l1 : List DelayFunc
  l2 : List DelayFunc

/-- Execution events recorded while the evaluation pipeline runs:
`delayEval` marks one execution of the body of `TimingModel.delay`,
`delayRun lvl tag` marks one delay function invocation at level `lvl`,
`phaseRun tag` marks one phase function invocation. -/
inductive Ev where
  | delayEval
  | delayRun (lvl : Level) (tag : String)
  | phaseRun (tag : String)
deriving DecidableEq

/-- Elementwise sum of two per-observation vectors (`delay += df(toas)`). -/
def addVec (a b : List Rat) : List Rat := List.zipWith (fun x y => x + y) a b

/-- Lists of delay functions by level, `self.delay_funcs[dlevel]`. -/
def levelFuncs (reg : DelayRegistry) : Level → List DelayFunc
  | Level.L1 => reg.l1
  | Level.L2 => reg.l2

/-- One iteration of the inner loop of `TimingModel.delay`: add the delay
function's contribution into the running total and record the invocation. -/
def delayStep (toas : List Rat) (lvl : Level) (acc : List Rat × List Ev)
    (df : DelayFunc) : List Rat × List Ev :=
  (addVec acc.1 (toas.map df.2), acc.2 ++ [Ev.delayRun lvl df.1])

/-- Embedding of the body of `TimingModel.delay` (timing_model.py lines
212-224): start from `np.zeros(len(toas))` and loop over
`self.delay_funcs.keys()` in dict order, adding each registered function's
contribution.  Also returns the trace of events, starting with `delayEval`
for the body's own execution. -/
def delay (reg : DelayRegistry) (toas : List Rat) : List Rat × List Ev :=
  dictKeysOrder.foldl
    (fun acc lvl => (levelFuncs reg lvl).foldl (delayStep toas lvl) acc)
    (List.replicate toas.length 0, [Ev.delayEval])

/-- Sum of the contributions of a list of delay functions at one
observation time. -/
def sumF (fs : List DelayFunc) (t : Rat) : Rat :=
  (fs.map (fun df => df.2 t)).sum

/-- The total delay, written order-independently: at each observation, the
sum of every registered delay function's contribution over both levels. -/
def delay_total (reg : DelayRegistry) (toas : List Rat) : List Rat :=
  toas.map (fun t => sumF (reg.l1 ++ reg.l2) t)

/-- Modelled from the spec: the `Phase` value class (src/pint/phase.py,
which is not under src/).  Per the spec's data model it is a two-field value
holding per-observation integer turns and fractional turns, "integer and
fractional parts must be carried and summed separately".  Field names `int`
and `frac` follow the source's usage `ph.int`, `ph.frac`. -/
structure Phase where
  int : List Int
  frac : List Rat
deriving DecidableEq

/-- Modelled from the spec: the fractional-carry normalisation of `Phase`
addition -- "fractional >= 1.0 or < -1.0 triggers an integer
increment/decrement and subtraction". -/
def carry (i : Int) (f : Rat) : Int × Rat :=
  if 1 ≤ f then (i + 1, f - 1)
  else if f < -1 then (i - 1, f + 1)
  else (i, f)

/-- Modelled from the spec: `Phase` addition sums integer and fractional
parts separately, then renormalises each fractional entry with `carry`. -/
def Phase.add (p q : Phase) : Phase :=
  let is := List.zipWith (fun a b => a + b) p.int q.int
  let fs := List.zipWith (fun a b => a + b) p.frac q.frac
  { int := List.zipWith (fun i f => (carry i f).1) is fs
    frac := List.zipWith (fun i f => (carry i f).2) is fs }

instance : Add Phase := ⟨Phase.add⟩

/-- The zero phase `Phase(np.zeros(len(toas)), np.zeros(len(toas)))`. -/
def Phase.zero (n : Nat) : Phase :=
  ⟨List.replicate n 0, List.replicate n 0⟩

/-- Modelled from the spec: the `Phase` constructor applied to one raw
per-observation array, `Phase(pf(toas, delay))`, splits each value into
integer turns and a signed fractional turn (the spec allows "fractional
turn in [0,1) or signed fraction"; the signed convention, value minus its
nearest integer, is used here). -/
def Phase.ofRats (xs : List Rat) : Phase :=
  ⟨xs.map (fun x => round x), xs.map (fun x => x - round x)⟩

/-- A registered phase function: a tag naming it plus its per-observation
contribution from (observation time, total delay). -/
abbrev PhaseFunc := String × (Rat → Rat → Rat)

/-- The parts of a TimingModel used by the phase pipeline: the delay
registry and the `self.phase_funcs` list in registration order. -/
structure PModel where
  reg : DelayRegistry
  phase_funcs : List PhaseFunc

/-- One iteration of the loop of `TimingModel.phase`:
`phase += Phase(pf(toas, delay))`, recording the invocation. -/
def phaseStep (toas d : List Rat) (acc : Phase × List Ev) (pf : PhaseFunc) :
    Phase × List Ev :=
  (acc.1 + Phase.ofRats (List.zipWith pf.2 toas d), acc.2 ++ [Ev.phaseRun pf.1])

/-- Embedding of the body of `TimingModel.phase` (timing_model.py lines
201-210): compute `delay = self.delay(toas)` (inside the active scope the
delay method's use_cache wrapper is a passthrough, so its body runs), start
from the zero phase, and fold every registered phase function over the same
observations and the same total delay.  Also returns the event trace. -/
def phase_body (m : PModel) (toas : List Rat) : Phase × List Ev :=
  let dres := delay m.reg toas
  m.phase_funcs.foldl (phaseStep toas dres.1) (Phase.zero toas.length, dres.2)

/-- The `phase` method as called from outside: the use_cache wrapper around
the phase body (the cache stores are irrelevant to the body, which never
calls cache_result, so the store value type is just Nat). -/
def phase_method (m : PModel) (toas : List Rat) (st : CacheAttr Nat) :
    Except String (Phase × List Ev) × CacheAttr Nat :=
  use_cache (fun st2 => (Except.ok (phase_body m toas), st2)) st

/-- Embedding of `emcee_fitter.get_event_phases` (event_optimize.py lines
98-104): take the fractional part of the model-predicted phase
(`self.model.phase(self.toas.table)[1]`) and shift every negative entry up
by one turn (`np.where(phss < 0.0, phss + 1.0, phss)`). -/
def get_event_phases (m : PModel) (toas : List Rat) : List Rat :=
  ((phase_body m toas).1.frac).map (fun p => if p < 0 then p + 1 else p)

/-- A Python value returned by a derivative accessor: either a bare scalar
(the `result = 0.0` placeholder) or a per-observation numpy vector. -/
inductive PyVal where
  | scalar (x : Rat)
  | vec (xs : List Rat)
deriving DecidableEq

/-- Is this value a per-observation vector (as opposed to a bare scalar)? -/
def PyVal.isVec : PyVal → Bool
  | PyVal.scalar _ => false
  | PyVal.vec _ => true

/-- A model parameter as seen by `designmatrix`: its name and frozen flag. -/
structure DMParam where
  name : String
  frozen : Bool
deriving DecidableEq

/-- The parts of a TimingModel used by the derivative accessors and
`designmatrix`: the ordered `self.params` list with frozen flags, the value
of the spin-frequency parameter `self.F0`, and the sets of analytic
derivative methods the model exposes -- `dpdpFuncs` maps a parameter name
to the method `d_phase_d_<name>` when `hasattr(self, "d_phase_d_"+name)`
holds, and `dddpFuncs` likewise for `d_delay_d_<name>`.  Derivative methods
are modelled pointwise over observations. -/
structure DMModel where
  params : List DMParam
  F0 : Rat
  dpdpFuncs : List (String × (Rat → Rat))
  dddpFuncs : List (String × (Rat → Rat))

/-- Embedding of `TimingModel.d_phase_d_param_num` (timing_model.py lines
326-337): the numeric fallback is a stub ("NOT implemented yet") that
returns the scalar `0.0` unconditionally. -/
def d_phase_d_param_num (_m : DMModel) (_toas : List Rat) (_par : String) :
    PyVal :=
  PyVal.scalar 0

/-- Embedding of `TimingModel.d_phase_d_param` (timing_model.py lines
309-324): dispatch to the analytic method `d_phase_d_<param>` when the
model has one, else fall back to `d_phase_d_param_num`. -/
def d_phase_d_param (m : DMModel) (toas : List Rat) (par : String) : PyVal :=
  match m.dpdpFuncs.lookup par with
  | some f => PyVal.vec (toas.map f)
  | none => d_phase_d_param_num m toas par

/-- One column of the design matrix, the body of the loop in
`TimingModel.designmatrix` (timing_model.py lines 370-384): the 'Offset'
column is all ones; else an analytic phase derivative divided by F0, else
an analytic delay derivative; else the column keeps the `np.zeros` fill --
there is no further branch and no error is raised. -/
def dmColumn (m : DMModel) (toas : List Rat) (par : String) : List Rat :=
  if par = "Offset" then List.replicate toas.length 1
  else
    match m.dpdpFuncs.lookup par with
    | some f => toas.map (fun t => f t / m.F0)
    | none =>
        match m.dddpFuncs.lookup par with
        | some f => toas.map f
        | none => List.replicate toas.length 0

/-- The parameter-name list built at the top of `TimingModel.designmatrix`
(timing_model.py lines 354-356): an optional leading 'Offset', then every
model parameter that is unfrozen (or all of them when `incfrozen`). -/
def dmParams (m : DMModel) (incfrozen incoffset : Bool) : List String :=
  (if incoffset then ["Offset"] else []) ++
    ((m.params.filter (fun p => incfrozen || !p.frozen)).map (fun p => p.name))

/-- Embedding of `TimingModel.designmatrix` (timing_model.py lines 348-386):
returns the matrix in column-major form (the source fills `M[:,ii]` column
by column) together with the parameter-name list. -/
def designmatrix (m : DMModel) (toas : List Rat) (incfrozen incoffset : Bool) :
    List (List Rat) × List String :=
  let ps := dmParams m incfrozen incoffset
  (ps.map (fun par => dmColumn m toas par), ps)

/-- Python's `str.split()`: split on whitespace runs, dropping empties. -/
def words (s : String) : List String :=
  (s.split Char.isWhitespace).filter (fun w => w ≠ "")

/-- The skip test at the top of the `read_parfile` loop (timing_model.py
lines 411-416): blank lines and lines starting with a comment marker. -/
def skipLine (l : String) : Bool :=
  l.isEmpty || l.startsWith "#" || l.take 2 = "C "

/-- `name = k[0].upper()`: the uppercased first token of a line. -/
def keptName (l : String) : String :=
  ((words l).headD "").toUpper

/-- `k[0] = k[0] + str(cnt); l = ' '.join(k)`: rewrite the first token of a
line by appending the occurrence counter and rejoin with single spaces. -/
def rewriteTok (l : String) (cnt : Nat) : String :=
  match words l with
  | [] => l
  | k0 :: krest => String.intercalate " " ((k0 ++ toString cnt) :: krest)

/-- Update an association list at a key, replacing the first binding or
appending a new one: the embedding of `repeat_param[name] = v`. -/
def alSet (al : List (String × Nat)) (k : String) (v : Nat) :
    List (String × Nat) :=
  match al with
  | [] => [(k, v)]
  | (k2, v2) :: rest =>
      if k2 = k then (k, v) :: rest else (k2, v2) :: alSet rest k v

/-- The next occurrence counter for a repeated name, mirroring
`repeat_param[name] += 1` when the name is already a key and
`repeat_param[name] = 2` otherwise (timing_model.py lines 421-425). -/
def repCnt (rep : List (String × Nat)) (name : String) : Nat :=
  match rep.lookup name with
  | some c => c + 1
  | none => 2

/-- The mutable loop state of `read_parfile`: the list of parameter names
already seen (`checked_param`, appended once per kept line) and the
occurrence counters (`repeat_param`). -/
structure RPState where
  checked : List String
  rep : List (String × Nat)

/-- Embedding of the line loop of `TimingModel.read_parfile`
(timing_model.py lines 405-442) from a given loop state: each kept line is
emitted as it is handed to the parameter-matching pass
(`from_parfile_line`), after the duplicate-name rewrite; skipped lines emit
nothing.  Uppercased names are recorded in `checked`, and a line whose name
was already checked has its first token suffixed with the occurrence
counter before being emitted. -/
def processFrom (st : RPState) : List String → List String
  | [] => []
  | pl :: rest =>
      if skipLine pl.trim then processFrom st rest
      else if keptName pl.trim ∈ st.checked then
        rewriteTok pl.trim (repCnt st.rep (keptName pl.trim)) ::
          processFrom
            ⟨st.checked ++ [keptName pl.trim],
             alSet st.rep (keptName pl.trim) (repCnt st.rep (keptName pl.trim))⟩
            rest
      else
        pl.trim ::
          processFrom ⟨st.checked ++ [keptName pl.trim], st.rep⟩ rest

/-- The lines that `read_parfile` hands to parameter matching, for a given
parfile content. -/
def read_parfile_lines (lines : List String) : List String :=
  processFrom ⟨[], []⟩ lines

/-- Written to the spec's words, for comparison with the embedding: the
k-th occurrence (counting kept lines with the same uppercased first token)
of a parameter name is rewritten by appending the counter k, starting at 2;
first occurrences pass through unchanged.  The count of a name among the
previously seen names is taken directly on the list of seen names. -/
def specFrom (seen : List String) : List String → List String
  | [] => []
  | pl :: rest =>
      if skipLine pl.trim then specFrom seen rest
      else if seen.count (keptName pl.trim) = 0 then
        pl.trim :: specFrom (seen ++ [keptName pl.trim]) rest
      else
        rewriteTok pl.trim (seen.count (keptName pl.trim) + 1) ::
          specFrom (seen ++ [keptName pl.trim]) rest

/-- The spec-side description of `read_parfile`'s duplicate handling. -/
def specProcess (lines : List String) : List String :=
  specFrom [] lines

/-- The parts of a TimingModel touched by `is_in_parfile`: the `params`
name list (which the method mutates through the alias `pNames_inModel`),
the per-parameter alias lists, whether the model has the `PLANET_SHAPIRO`
attribute, and the `BinaryModelName` attribute when present. -/
structure TMState where
  params : List String
  aliases : List (String × List String)
  planet_shapiro : Bool
  binaryModelName : Option String

/-- The alias loop of `is_in_parfile` (timing_model.py lines 496-506): for
each remaining model parameter, look up its aliases; an empty alias list is
skipped; the first parameter with an alias appearing among the parfile keys
returns true; otherwise the loop falls through to false. -/
def aliasScan (al : List (String × List String)) (keys : List String) :
    List String → Bool
  | [] => false
  | p :: rest =>
      match al.lookup p with
      | some als =>
          if als = [] then aliasScan al keys rest
          else if als.any (fun a => keys.contains a) then true
          else aliasScan al keys rest
      | none => aliasScan al keys rest

/-- The name-intersection comparison of `is_in_parfile` (timing_model.py
lines 492-512): exact-name intersection wins; when it is empty the alias
loop decides. -/
def is_in_parfile_compare (pNames keys : List String)
    (al : List (String × List String)) : Bool :=
  if keys.any (fun k => pNames.contains k) then true
  else aliasScan al keys pNames

/-- Embedding of `TimingModel.is_in_parfile` (timing_model.py lines
449-512).  The parfile dictionary is an association list from parameter
name to its value tokens.  `pNames_inModel = self.params` binds the very
list object owned by the model, so the `del` that drops 'PSR' mutates the
model; the returned state carries that mutation, which happens on every
path.  The Shapiro opt-out check runs first; then the BINARY-tag
comparison, whose bare `except: pass` swallows a missing `BinaryModelName`
attribute, a missing 'BINARY' key, and an empty value list, falling through
to the name/alias comparison. -/
def is_in_parfile (tm : TMState) (d : List (String × List String)) :
    Bool × TMState :=
  let keys := d.map (fun kv => kv.1)
  let pNames := tm.params.erase "PSR"
  let tm2 : TMState := ⟨pNames, tm.aliases, tm.planet_shapiro, tm.binaryModelName⟩
  let b :=
    if tm.planet_shapiro then
      !(keys.contains "NO_SS_SHAPIRO")
    else
      match tm.binaryModelName, d.lookup "BINARY" with
      | some bm, some (bv :: _) => bm == bv
      | _, _ => is_in_parfile_compare pNames keys tm.aliases
  (b, tm2)

/-- Does the trace ever run an L1 delay function after an L2 delay function
has already run?  (The ordering violation the L1-before-L2 invariant
forbids.) -/
def isL1Run : Ev → Bool
  | Ev.delayRun Level.L1 _ => true
  | _ => false

def l1AfterL2 : List Ev → Bool
  | [] => false
  | Ev.delayRun Level.L2 _ :: rest => rest.any isL1Run || l1AfterL2 rest
  | _ :: rest => l1AfterL2 rest

/-- A registry with one pre-barycentric (L1) and one post-barycentric (L2)
delay function, for exercising the evaluation order of `delay`. -/
def regC2 : DelayRegistry :=
  ⟨[("roemer", fun t => t + 1)], [("binary", fun t => 2 * t)]⟩

/-- Body that raises: models a wrapped computation failing partway. -/
def failBodyNat : CacheAttr Nat → Except String Nat × CacheAttr Nat :=
  fun st => (Except.error "boom", st)

/-- Body that returns normally without touching the cache. -/
def okBodyNat : CacheAttr Nat → Except String Nat × CacheAttr Nat :=
  fun st => (Except.ok 5, st)

/-- A small model for the cache-reuse experiment: one L1 delay function and
one phase function. -/
def mC4 : PModel :=
  ⟨⟨[("ssb", fun t => t)], []⟩, [("spindown", fun t d => t - d)]⟩

/-- Number of delay-body executions recorded by one `phase` call. -/
def evCount : Except String (Phase × List Ev) → Nat
  | Except.ok pr => pr.2.count Ev.delayEval
  | Except.error _ => 0

/-- Call the use_cache-wrapped `phase` method twice in a row inside one
active cache scope, on an unchanged receiver, and count how many times the
delay body (the underlying computation) ran in total. -/
def twoCallsC4 : Nat :=
  let c1 := phase_method mC4 [0, 1] (CacheAttr.active [])
  let c2 := phase_method mC4 [0, 1] c1.2
  evCount c1.1 + evCount c2.1

/-- A model with a single free parameter 'X' exposing neither a
`d_phase_d_X` nor a `d_delay_d_X` method. -/
def mC3 : DMModel := ⟨[⟨"X", false⟩], 1, [], []⟩

/-- A model exposing an analytic `d_phase_d_F0` method only. -/
def mC7 : DMModel := ⟨[⟨"F0", false⟩], 2, [("F0", fun t => t)], []⟩

/-- A model whose single phase function reproduces the observation time, so
a fractional observation yields a negative signed phase fraction. -/
def mC9 : PModel := ⟨⟨[], []⟩, [("spin", fun t _ => t)]⟩

/-- A model state owning 'PSR' and one further parameter. -/
def tmC10 : TMState := ⟨["PSR", "F0"], [], false, none⟩

/-- The CPython 2.7 slot of 'L1' is 7 and of 'L2' is 4, so dict iteration
yields 'L2' first. -/
theorem dictKeysOrder_eq : dictKeysOrder = [Level.L2, Level.L1] := by decide

theorem addVec_map (g f : Rat → Rat) (ts : List Rat) :
    addVec (ts.map g) (ts.map f) = ts.map (fun t => g t + f t) := by
  induction ts with
  | nil => rfl
  | cons t ts ih =>
      simp only [List.map_cons, addVec, List.zipWith] at ih ⊢
      rw [ih]

theorem sumF_cons (df : DelayFunc) (fs : List DelayFunc) (t : Rat) :
    sumF (df :: fs) t = df.2 t + sumF fs t := by
  simp [sumF]

theorem sumF_append (a b : List DelayFunc) (t : Rat) :
    sumF (a ++ b) t = sumF a t + sumF b t := by
  simp [sumF]

theorem replicate_zero_eq_map (ts : List Rat) :
    List.replicate ts.length (0 : Rat) = ts.map (fun _ => 0) :=
  (List.map_const' ts 0).symm

theorem delay_foldl_funcs (toas : List Rat) (lvl : Level) (fs : List DelayFunc) :
    ∀ (g : Rat → Rat) (E : List Ev),
      fs.foldl (delayStep toas lvl) (toas.map g, E) =
        (toas.map (fun t => g t + sumF fs t),
         E ++ fs.map (fun df => Ev.delayRun lvl df.1)) := by
  induction fs with
  | nil => intro g E; simp [sumF]
  | cons df fs ih =>
      intro g E
      simp only [List.foldl_cons, delayStep, addVec_map]
      rw [ih (fun t => g t + df.2 t) (E ++ [Ev.delayRun lvl df.1])]
      refine congrArg₂ Prod.mk ?_ (by simp)
      refine congrArg (List.map · toas) (funext fun t => ?_)
      rw [sumF_cons, add_assoc]

/-- The delay body, evaluated: its value is the order-independent total, and
its trace runs the whole L2 list before any L1 function because the dict
iterates 'L2' first. -/
theorem delay_eq (reg : DelayRegistry) (toas : List Rat) :
    delay reg toas =
      (delay_total reg toas,
       Ev.delayEval ::
         (reg.l2.map (fun df => Ev.delayRun Level.L2 df.1)
           ++ reg.l1.map (fun df => Ev.delayRun Level.L1 df.1))) := by
  unfold delay
  rw [dictKeysOrder_eq]
  simp only [List.foldl_cons, List.foldl_nil, levelFuncs]
  rw [replicate_zero_eq_map, delay_foldl_funcs, delay_foldl_funcs]
  refine congrArg₂ Prod.mk ?_ (by simp)
  unfold delay_total
  refine congrArg (List.map · toas) (funext fun t => ?_)
  rw [sumF_append, zero_add, add_comm]

theorem count_delayEval_map_delayRun (fs : List DelayFunc) (lvl : Level) :
    (fs.map (fun df => Ev.delayRun lvl df.1)).count Ev.delayEval = 0 := by
  rw [List.count_eq_zero]
  intro h
  obtain ⟨df, _, hdf⟩ := List.mem_map.mp h
  exact Ev.noConfusion hdf

theorem count_delayEval_map_phaseRun (pfs : List PhaseFunc) :
    (pfs.map (fun pf => Ev.phaseRun pf.1)).count Ev.delayEval = 0 := by
  rw [List.count_eq_zero]
  intro h
  obtain ⟨pf, _, hpf⟩ := List.mem_map.mp h
  exact Ev.noConfusion hpf

theorem phase_foldl (toas d : List Rat) (pfs : List PhaseFunc) :
    ∀ (p : Phase) (E : List Ev),
      pfs.foldl (phaseStep toas d) (p, E) =
        (pfs.foldl
          (fun acc pf => acc + Phase.ofRats (List.zipWith pf.2 toas d)) p,
         E ++ pfs.map (fun pf => Ev.phaseRun pf.1)) := by
  induction pfs with
  | nil => intro p E; simp
  | cons pf pfs ih =>
      intro p E
      simp only [List.foldl_cons, phaseStep]
      rw [ih]
      simp

/-- Claim C1, counterexample: a use_cache-wrapped call entered with no
active scope (`self.cache = None`) whose body raises leaves the receiver
with an ACTIVE cache scope -- the teardown `setattr(args[0], cls.the_cache,
None)` at timing_model.py line 89 is skipped when the wrapped computation
raises, because there is no try/finally around line 88. -/
theorem use_cache_error_keeps_scope_cex :
    (use_cache failBodyNat CacheAttr.inactive).2 = CacheAttr.active []
    ∧ (use_cache failBodyNat CacheAttr.inactive).2 ≠ CacheAttr.inactive := by
  decide

/-- Claim C1, amended: entered with no active scope, use_cache creates one
and tears it down on every NORMAL return; but when the wrapped computation
raises, the exception propagates with the scope left as the body last had
it (in particular still active), so an active scope does survive a failing
top-level call. -/
theorem use_cache_teardown_only_on_success (α β : Type)
    (body : CacheAttr α → Except String β × CacheAttr α) :
    (∀ r st2, body (CacheAttr.active []) = (Except.ok r, st2) →
        use_cache body CacheAttr.inactive = (Except.ok r, CacheAttr.inactive))
    ∧ (∀ e st2, body (CacheAttr.active []) = (Except.error e, st2) →
        use_cache body CacheAttr.inactive = (Except.error e, st2)) := by
  constructor
  · intro r st2 h
    simp [use_cache, h]
  · intro e st2 h
    simp [use_cache, h]

theorem use_cache_teardown_only_on_success_witness :
    use_cache okBodyNat CacheAttr.inactive = (Except.ok 5, CacheAttr.inactive)
    ∧ use_cache failBodyNat CacheAttr.inactive
        = (Except.error "boom", CacheAttr.active []) :=
  ⟨(use_cache_teardown_only_on_success Nat Nat okBodyNat).1 5
      (CacheAttr.active []) rfl,
   (use_cache_teardown_only_on_success Nat Nat failBodyNat).2 "boom"
      (CacheAttr.active []) rfl⟩

/-- Claim C2: at a registry with one L1 function ("roemer") and one L2
function ("binary"), the delay body runs the L2 function BEFORE the L1
function, because `for dlevel in self.delay_funcs.keys()` iterates the
CPython 2.7 dict in slot order, which puts 'L2' (slot 4) before 'L1'
(slot 7).  This contradicts the source's own stated L1-before-L2 ordering
(timing_model.py lines 133-135). -/
theorem delay_runs_L2_before_L1_at_failing_input :
    (delay regC2 [0, 1]).2 =
      [Ev.delayEval, Ev.delayRun Level.L2 "binary", Ev.delayRun Level.L1 "roemer"]
    ∧ l1AfterL2 (delay regC2 [0, 1]).2 = true := by
  decide

/-- Claim C3, counterexample: for the free parameter 'X' with neither a
`d_phase_d_X` nor a `d_delay_d_X` method, `designmatrix` returns normally
(it has no raise path) and 'X''s column is silently the all-zero
`np.zeros` fill. -/
theorem designmatrix_silent_zero_column_cex :
    (designmatrix mC3 [0, 1] false true).1 = [[1, 1], [0, 0]]
    ∧ (designmatrix mC3 [0, 1] false true).2 = ["Offset", "X"]
    ∧ (designmatrix mC3 [0, 1] false true).1.get? 1
        = some (List.replicate 2 (0 : Rat)) := by
  decide

/-- Claim C3, amended: a requested parameter for which the model exposes
neither an analytic phase derivative nor a delay derivative gets a silent
all-zero design-matrix column -- the loop has no further branch and no
'Unavailable derivative' error exists in the code. -/
theorem designmatrix_missing_deriv_zero_column (m : DMModel) (toas : List Rat)
    (par : String) (h1 : par ≠ "Offset")
    (h2 : m.dpdpFuncs.lookup par = none)
    (h3 : m.dddpFuncs.lookup par = none) :
    dmColumn m toas par = List.replicate toas.length 0 := by
  simp [dmColumn, h1, h2, h3]

theorem designmatrix_missing_deriv_zero_column_witness :
    ("X" ≠ "Offset")
    ∧ dmColumn mC3 [0, 1] "X" = List.replicate 2 0 :=
  ⟨by decide,
   designmatrix_missing_deriv_zero_column mC3 [0, 1] "X" (by decide) rfl rfl⟩

/-- Claim C4, counterexample: `phase` is wrapped by `use_cache`, not by
`cache_result` (no TimingModel method is cache_result-wrapped), so inside
one active cache scope two successive calls on an unchanged receiver run
the underlying computation (the delay body) twice, not once. -/
theorem phase_not_cache_result_recomputes_cex :
    twoCallsC4 = 2 ∧ twoCallsC4 ≠ 1 := by
  decide

/-- Claim C4, amended: a call actually wrapped by `cache_result` behaves as
claimed -- within one active scope a second call returns the stored result
and the underlying computation runs exactly once in total, while with no
usable scope every call recomputes and the cache state is untouched.  But
`phase`, `delay` and `get_prefix_mapping` are wrapped by `use_cache`
instead, so they recompute on every call even inside a scope. -/
theorem cache_result_scope_semantics (α : Type) (fname : String)
    (f : Unit → α) (s : List (String × α)) :
    (s.lookup fname = none →
      (call_twice fname f (CacheAttr.active s)).1.1 = f ()
      ∧ (call_twice fname f (CacheAttr.active s)).1.2 = f ()
      ∧ (call_twice fname f (CacheAttr.active s)).2.2 = 1)
    ∧ call_twice fname f CacheAttr.inactive = ((f (), f ()), CacheAttr.inactive, 2)
    ∧ call_twice fname f CacheAttr.absent = ((f (), f ()), CacheAttr.absent, 2) := by
  refine ⟨fun h => ?_, rfl, rfl⟩
  simp [call_twice, cache_result, h, List.lookup]

theorem cache_result_scope_semantics_witness :
    ((call_twice "phase" (fun _ => (7 : Nat)) (CacheAttr.active [])).2.2 = 1)
    ∧ call_twice "phase" (fun _ => (7 : Nat)) CacheAttr.inactive
        = ((7, 7), CacheAttr.inactive, 2) :=
  ⟨((cache_result_scope_semantics Nat "phase" (fun _ => 7) []).1 rfl).2.2,
   (cache_result_scope_semantics Nat "phase" (fun _ => 7) []).2.1⟩

/-- Claim C6: with `incfrozen = False` and `incoffset = True`, the design
matrix has F + 1 columns (one per unfrozen parameter plus the leading
'Offset'), every column has one entry per observation, and the first
column is all ones. -/
theorem designmatrix_shape_offset_column (m : DMModel) (toas : List Rat) :
    ((designmatrix m toas false true).1).length
        = 1 + (m.params.filter (fun p => !p.frozen)).length
    ∧ ((designmatrix m toas false true).1).all
        (fun col => col.length == toas.length) = true
    ∧ ((designmatrix m toas false true).1).head?
        = some (List.replicate toas.length 1) := by
  refine ⟨?_, ?_, ?_⟩
  · simp [designmatrix, dmParams]
    omega
  · rw [List.all_eq_true]
    intro col hcol
    simp only [designmatrix, List.mem_map] at hcol
    obtain ⟨par, _, rfl⟩ := hcol
    simp only [beq_iff_eq]
    unfold dmColumn
    split
    · simp
    · cases h2 : m.dpdpFuncs.lookup par with
      | some f => simp [h2]
      | none =>
          cases h3 : m.dddpFuncs.lookup par with
          | some f => simp [h2, h3]
          | none => simp [h2, h3]
  · simp [designmatrix, dmParams, dmColumn]

/-- Claim C7, counterexample: requesting the derivative for a parameter
with no analytic `d_phase_d_X` method returns the numeric stub's bare
scalar 0.0, not a per-observation vector. -/
theorem d_phase_d_param_fallback_scalar_cex :
    PyVal.isVec (d_phase_d_param mC7 [1, 2] "X") = false
    ∧ d_phase_d_param mC7 [1, 2] "X" = PyVal.scalar 0 := by
  decide

/-- Claim C7, amended: `d_phase_d_param` returns the analytic
`d_phase_d_<name>` result whenever the model exposes one; otherwise it
returns the numeric fallback's result, which is the unimplemented stub's
scalar 0.0 rather than a per-observation derivative vector. -/
theorem d_phase_d_param_dispatch (m : DMModel) (toas : List Rat)
    (par : String) :
    (∀ f, m.dpdpFuncs.lookup par = some f →
        d_phase_d_param m toas par = PyVal.vec (toas.map f))
    ∧ (m.dpdpFuncs.lookup par = none →
        d_phase_d_param m toas par = PyVal.scalar 0) := by
  constructor
  · intro f h
    simp [d_phase_d_param, h]
  · intro h
    simp [d_phase_d_param, d_phase_d_param_num, h]

theorem d_phase_d_param_dispatch_witness :
    d_phase_d_param mC7 [1, 2] "F0" = PyVal.vec [1, 2]
    ∧ d_phase_d_param mC7 [1, 2] "DM" = PyVal.scalar 0 :=
  ⟨(d_phase_d_param_dispatch mC7 [1, 2] "F0").1 (fun t => t) rfl,
   (d_phase_d_param_dispatch mC7 [1, 2] "DM").2 rfl⟩

/-- Claim C10: `is_in_parfile` binds `pNames_inModel` to the model's own
`params` list object and deletes 'PSR' from it, so after the call the
model's params list no longer contains 'PSR' (the model's 'PSR' parameter
is invisible to every later iteration over `self.params`). -/
theorem is_in_parfile_removes_PSR (tm : TMState)
    (d : List (String × List String)) (h : tm.params.count "PSR" = 1) :
    (is_in_parfile tm d).2.params = tm.params.erase "PSR"
    ∧ "PSR" ∉ (is_in_parfile tm d).2.params := by
  have h1 : (is_in_parfile tm d).2.params = tm.params.erase "PSR" := rfl
  refine ⟨h1, ?_⟩
  rw [h1]
  have h2 : (tm.params.erase "PSR").count "PSR" = 0 := by
    rw [List.count_erase_self, h]
  exact List.count_eq_zero.mp h2

theorem is_in_parfile_removes_PSR_witness :
    (is_in_parfile tmC10 []).2.params = ["F0"]
    ∧ "PSR" ∉ (is_in_parfile tmC10 []).2.params := by
  have h := is_in_parfile_removes_PSR tmC10 [] (by decide)
  exact ⟨h.1.trans (by decide), h.2⟩

/-- Claim C5: the phase body computes the delay exactly once (one delayEval
event), folds every registered phase function in registration order over
the same observations and that one total delay, and accumulates with Phase
addition; its trace is the single delay run followed by the phase-function
runs in registration order. -/
theorem phase_single_delay_then_phase_funcs_in_order (m : PModel)
    (toas : List Rat) :
    (phase_body m toas).1 =
      m.phase_funcs.foldl
        (fun acc pf =>
          acc + Phase.ofRats (List.zipWith pf.2 toas (delay_total m.reg toas)))
        (Phase.zero toas.length)
    ∧ ((phase_body m toas).2).count Ev.delayEval = 1
    ∧ (phase_body m toas).2 =
        (delay m.reg toas).2 ++ m.phase_funcs.map (fun pf => Ev.phaseRun pf.1) := by
  have hd := delay_eq m.reg toas
  have hpb : phase_body m toas
      = (m.phase_funcs.foldl
          (fun acc pf =>
            acc + Phase.ofRats (List.zipWith pf.2 toas (delay_total m.reg toas)))
          (Phase.zero toas.length),
         (delay m.reg toas).2 ++ m.phase_funcs.map (fun pf => Ev.phaseRun pf.1)) := by
    simp only [phase_body]
    rw [hd]
    rw [phase_foldl]
  refine ⟨by rw [hpb], ?_, by rw [hpb]⟩
  rw [hpb]
  simp [hd, List.count_append, List.cons_append, List.count_cons_self,
    count_delayEval_map_delayRun, count_delayEval_map_phaseRun]

theorem mem_zipWith_pair {α β γ : Type} (g : α → β → γ) :
    ∀ (as : List α) (bs : List β) (y : γ), y ∈ List.zipWith g as bs →
      ∃ a, a ∈ as ∧ ∃ b, b ∈ bs ∧ y = g a b := by
  intro as
  induction as with
  | nil => intro bs y h; simp at h
  | cons a as ih =>
      intro bs y h
      cases bs with
      | nil => simp at h
      | cons b bs =>
          rw [List.zipWith_cons_cons, List.mem_cons] at h
          cases h with
          | inl h => exact ⟨a, by simp, b, by simp, h⟩
          | inr h =>
              obtain ⟨a2, ha2, b2, hb2, hy⟩ := ih bs y h
              exact ⟨a2, List.mem_cons_of_mem _ ha2, b2,
                List.mem_cons_of_mem _ hb2, hy⟩

theorem carry_frac_bound (i : Int) (f : Rat) (h1 : -2 ≤ f) (h2 : f < 2) :
    -1 ≤ (carry i f).2 ∧ (carry i f).2 < 1 := by
  unfold carry
  split_ifs with ha hb
  · refine ⟨by simp; linarith, by simp; linarith⟩
  · refine ⟨by simp; linarith, by simp; linarith⟩
  · have ha2 : f < 1 := not_le.mp ha
    have hb2 : -1 ≤ f := not_lt.mp hb
    exact ⟨hb2, ha2⟩

theorem ofRats_frac_bound (xs : List Rat) :
    ∀ f, f ∈ (Phase.ofRats xs).frac → -1 ≤ f ∧ f < 1 := by
  intro f hf
  simp only [Phase.ofRats, List.mem_map] at hf
  obtain ⟨x, _, rfl⟩ := hf
  have h := abs_sub_round x
  rw [abs_le] at h
  constructor
  · linarith [h.1]
  · linarith [h.2]

theorem add_frac_bound (p q : Phase)
    (hp : ∀ f, f ∈ p.frac → -1 ≤ f ∧ f < 1)
    (hq : ∀ f, f ∈ q.frac → -1 ≤ f ∧ f < 1) :
    ∀ f, f ∈ (p + q).frac → -1 ≤ f ∧ f < 1 := by
  intro f hf
  have he : (p + q).frac
      = List.zipWith (fun i f => (carry i f).2)
          (List.zipWith (fun a b => a + b) p.int q.int)
          (List.zipWith (fun a b => a + b) p.frac q.frac) := rfl
  rw [he] at hf
  obtain ⟨i, _, s, hs, rfl⟩ := mem_zipWith_pair _ _ _ _ hf
  obtain ⟨f1, hf1, f2, hf2, rfl⟩ := mem_zipWith_pair _ _ _ _ hs
  exact carry_frac_bound i (f1 + f2)
    (by linarith [(hp f1 hf1).1, (hq f2 hf2).1])
    (by linarith [(hp f1 hf1).2, (hq f2 hf2).2])

theorem zero_frac_bound (n : Nat) :
    ∀ f, f ∈ (Phase.zero n).frac → -1 ≤ f ∧ f < 1 := by
  intro f hf
  simp only [Phase.zero, List.mem_replicate] at hf
  rw [hf.2]
  norm_num

theorem phase_fold_frac_bound (toas d : List Rat) (pfs : List PhaseFunc) :
    ∀ (p : Phase), (∀ f, f ∈ p.frac → -1 ≤ f ∧ f < 1) →
      ∀ f, f ∈ (pfs.foldl
          (fun acc pf => acc + Phase.ofRats (List.zipWith pf.2 toas d)) p).frac →
        -1 ≤ f ∧ f < 1 := by
  induction pfs with
  | nil => intro p hp; exact hp
  | cons pf pfs ih =>
      intro p hp
      exact ih _ (add_frac_bound _ _ hp (ofRats_frac_bound _))

theorem phase_body_frac_bound (m : PModel) (toas : List Rat) :
    ∀ f, f ∈ (phase_body m toas).1.frac → -1 ≤ f ∧ f < 1 := by
  have h1 : (phase_body m toas).1
      = m.phase_funcs.foldl
          (fun acc pf =>
            acc + Phase.ofRats (List.zipWith pf.2 toas (delay m.reg toas).1))
          (Phase.zero toas.length) := by
    simp only [phase_body]
    rw [phase_foldl]
  rw [h1]
  exact phase_fold_frac_bound _ _ _ _ (zero_frac_bound _)

/-- Claim C9: the phases `get_event_phases` reports are the model's
fractional phases with every negative entry shifted up by one turn, and
every reported value is non-negative (the fractional parts the pipeline
produces lie in the carry-normalised interval from -1 inclusive to 1
exclusive, so the shift lands negatives in the unit interval). -/
theorem get_event_phases_nonneg_shift (m : PModel) (toas : List Rat) :
    get_event_phases m toas =
      ((phase_body m toas).1.frac).map (fun p => if p < 0 then p + 1 else p)
    ∧ (get_event_phases m toas).all (fun y => decide (0 ≤ y)) = true := by
  refine ⟨rfl, ?_⟩
  rw [List.all_eq_true]
  intro y hy
  simp only [get_event_phases, List.mem_map] at hy
  obtain ⟨f, hf, rfl⟩ := hy
  have hb := phase_body_frac_bound m toas f hf
  rw [decide_eq_true_eq]
  by_cases hneg : f < 0
  · rw [if_pos hneg]
    linarith [hb.1]
  · rw [if_neg hneg]
    linarith [not_lt.mp hneg]

theorem lookup_alSet (al : List (String × Nat)) (k : String) (v : Nat) :
    (alSet al k v).lookup k = some v := by
  induction al with
  | nil => simp [alSet, List.lookup]
  | cons p rest ih =>
      obtain ⟨k2, v2⟩ := p
      by_cases h : k2 = k
      · simp [alSet, h, List.lookup]
      · have hbeq : (k == k2) = false := by
          rw [beq_eq_false_iff_ne]
          exact fun hh => h hh.symm
        simp [alSet, h, List.lookup, hbeq, ih]

theorem lookup_alSet_ne (al : List (String × Nat)) (k k2 : String) (v : Nat)
    (h : k2 ≠ k) : (alSet al k v).lookup k2 = al.lookup k2 := by
  have hbeq : (k2 == k) = false := by
    rw [beq_eq_false_iff_ne]
    exact h
  induction al with
  | nil => simp [alSet, List.lookup, hbeq]
  | cons p rest ih =>
      obtain ⟨k3, v3⟩ := p
      by_cases h3 : k3 = k
      · subst h3
        simp [alSet, List.lookup, hbeq]
      · simp [alSet, h3, List.lookup, ih]

theorem processFrom_eq_specFrom (lines : List String) :
    ∀ (st : RPState) (seen : List String),
      st.checked = seen →
      (∀ N, st.rep.lookup N
          = if 2 ≤ seen.count N then some (seen.count N) else none) →
      processFrom st lines = specFrom seen lines := by
  induction lines with
  | nil =>
      intro st seen h1 h2
      rfl
  | cons pl rest ih =>
      intro st seen h1 h2
      by_cases hskip : skipLine pl.trim = true
      · simp only [processFrom, specFrom, hskip, if_true]
        exact ih st seen h1 h2
      · simp only [processFrom, specFrom, hskip, if_false]
        set n := keptName pl.trim with hn
        by_cases hmem : n ∈ st.checked
        · have hmem2 : n ∈ seen := h1 ▸ hmem
          have hc0 : ¬(seen.count n = 0) := fun h0 =>
            (List.count_eq_zero.mp h0) hmem2
          have hcnt : repCnt st.rep n = seen.count n + 1 := by
            unfold repCnt
            rw [h2 n]
            by_cases h2c : 2 ≤ seen.count n
            · rw [if_pos h2c]
            · rw [if_neg h2c]
              have h1c : seen.count n = 1 := by omega
              rw [h1c]
          rw [if_pos hmem, if_neg hc0, hcnt]
          have hinv : ∀ N, List.lookup N (alSet st.rep n (List.count n seen + 1))
              = if 2 ≤ List.count N (seen ++ [n])
                then some (List.count N (seen ++ [n])) else none := by
            intro N
            by_cases hN : N = n
            · rw [hN, lookup_alSet]
              have hc : List.count n (seen ++ [n]) = List.count n seen + 1 := by
                simp [List.count_append]
              rw [hc, if_pos (by omega)]
            · rw [lookup_alSet_ne _ _ _ _ hN]
              have hc : List.count N (seen ++ [n]) = List.count N seen := by
                simp [List.count_append, List.count_cons, hN]
              rw [hc]
              exact h2 N
          rw [ih ⟨st.checked ++ [n], alSet st.rep n (List.count n seen + 1)⟩
            (seen ++ [n]) (by simp [h1]) hinv]
          simp
        · have hmem2 : n ∉ seen := h1 ▸ hmem
          have hc0 : seen.count n = 0 := List.count_eq_zero.mpr hmem2
          rw [if_neg hmem, if_pos hc0]
          have hinv : ∀ N, List.lookup N st.rep
              = if 2 ≤ List.count N (seen ++ [n])
                then some (List.count N (seen ++ [n])) else none := by
            intro N
            by_cases hN : N = n
            · rw [hN, h2 n]
              have hc : List.count n (seen ++ [n]) = List.count n seen + 1 := by
                simp [List.count_append]
              rw [hc, hc0]
              simp
            · have hc : List.count N (seen ++ [n]) = List.count N seen := by
                simp [List.count_append, List.count_cons, hN]
              rw [hc]
              exact h2 N
          rw [ih ⟨st.checked ++ [n], st.rep⟩ (seen ++ [n]) (by simp [h1]) hinv]
          simp

/-- Claim C8: the lines `read_parfile` hands to parameter matching agree
with the spec-side description `specProcess`: for each kept line whose
uppercased first token has already occurred among the kept lines, the
first token is rewritten by appending the occurrence index (the k-th
occurrence of a name gets suffix k, starting at 2) before any matching
happens, and first occurrences pass through unchanged. -/
theorem read_parfile_duplicate_suffix_refines_spec (lines : List String) :
    read_parfile_lines lines = specProcess lines := by
  unfold read_parfile_lines specProcess
  apply processFrom_eq_specFrom
  · rfl
  · intro N
    simp [List.lookup]
